import Mathlib

/-!
Verification of the multi-dimensional bounded-knapsack solver in
`src/main.rs` (the `mkp` binary).

The Rust code is shallowly embedded: machine integers (`usize`) become
`Nat`, the `f64` item values and value table are modelled exactly as
rationals (`ℚ`), fallible operations return `Option`/`Except`, and the
flat `Vec` tables of size `end + 1` become total functions `Nat → ℚ` /
`Nat → Nat` of which only indices `≤ end` are ever read or written.
Loops become structural folds/recursions over the same index sequences
the code traverses.
-/

namespace Mkp

/-- An item type (`struct Thing`): display name, value (`f64`, modelled
exactly as a rational), maximum usable count `num`, and per-dimension
cost vector `costs`. -/
structure Thing where
  name : String
  value : ℚ
  num : Nat
  costs : List Nat

/-- Placeholder item, used only as the `List.getD` fallback in statements. -/
def dummyThing : Thing := { name := "", value := 0, num := 0, costs := [] }

/-- The global capacity vector (`struct Costs(Vec<usize>)`). -/
structure Costs where
  bounds : List Nat

namespace Costs

/-- `Costs::to_idx`: mixed-radix (Horner) encoding of a coordinate vector.
The Rust loop runs over `self.0.iter().skip(1).enumerate()`, reading
`vec[idx]` and doing `ans += vec[idx]; ans *= c + 1`, then adds
`*vec.last().unwrap()`.  The zip with `bounds.tail` pairs `vec[idx]` with
`bounds[idx+1]` exactly as the loop does; `getLastD 0` stands for
`vec.last().unwrap()` (the `unwrap` cannot fail on the non-empty vectors
the program passes). -/
def to_idx (cs : Costs) (vec : List Nat) : Nat :=
  (vec.zip cs.bounds.tail).foldl (fun ans p => (ans + p.1) * (p.2 + 1)) 0 +
    vec.getLastD 0

/-- Digit-extraction loop of `Costs::to_cost`: for each bound `b` taken in
reverse order, push `c % (b + 1)` and divide `c` by `b + 1`. -/
def toCostRev : List Nat → Nat → List Nat
  | [], _ => []
  | b :: bs, c => c % (b + 1) :: toCostRev bs (c / (b + 1))

/-- `Costs::to_cost`: mixed-radix decoding; extract digits over the
reversed bound vector, then reverse the collected digits. -/
def to_cost (cs : Costs) (c : Nat) : List Nat :=
  (toCostRev cs.bounds.reverse c).reverse

/-- `Costs::end`: the encoded index of the bound vector itself. -/
def end' (cs : Costs) : Nat := cs.to_idx cs.bounds

/-- Loop of `Costs::validate_sub`.  At position `idx` the multiplier is
`self.0[idx + 1]` when that exists and `0` otherwise, which is what the
running `rads` list (initially `bounds.tail`) with `headD 0` computes.
The `cost` list running out while `bound` has not models the
index-out-of-bounds panic as `none`; the program only ever calls it with
equal lengths. -/
def validateSubGo : List Nat → List Nat → List Nat → Nat → Option Nat
  | [], _, _, ans => some ans
  | _ :: _, [], _, _ => none
  | b :: bs, c :: cost, rads, ans =>
      if b < c then none
      else validateSubGo bs cost rads.tail ((ans + (b - c)) * (rads.headD 0 + 1))

/-- `Costs::validate_sub`: componentwise feasibility check and encoded
index of the difference, in a single pass. -/
def validate_sub (cs : Costs) (bound cost : List Nat) : Option Nat :=
  validateSubGo bound cost cs.bounds.tail 0

end Costs

/-- The mutable DP state of one 0/1 pass: the shared value table and the
current item's quantity-taken table. -/
abbrev DpState := (Nat → ℚ) × (Nat → Nat)

/-- `struct Problem`: the validated input together with the value table. -/
structure Problem where
  things : List Thing
  costs : Costs
  dp : Nat → ℚ

/-- `Problem::new`: wrap the bound vector and allocate the zeroed value
table (`vec![0.0; costs.end() + 1]`; the size bound is implicit in the
function model, which is only read below `end'`). -/
def Problem.new (things : List Thing) (costs : List Nat) : Problem :=
  { things := things, costs := Costs.mk costs, dp := fun _ => 0 }

/-- Body of the `for c in self.costs.iter().rev()` loop of
`Problem::zero_one_pack`: decode `c`, try to spend `cost`, and on strict
improvement write the new value and quantity. -/
def zopStep (cs : Costs) (cost : List Nat) (value : ℚ) (k : Nat)
    (st : DpState) (c : Nat) : DpState :=
  match cs.validate_sub (cs.to_cost c) cost with
  | none => st
  | some idx =>
      if st.1 c < st.1 idx + value then
        (Function.update st.1 c (st.1 idx + value),
         Function.update st.2 c (st.2 idx + k))
      else st

/-- One full 0/1 pass: fold `zopStep` over the indices `end', …, 1, 0`
(the strictly descending iteration of the Rust loop). -/
def zopPass (cs : Costs) (cost : List Nat) (value : ℚ) (k : Nat)
    (st : DpState) : DpState :=
  ((List.range (cs.end' + 1)).reverse).foldl (zopStep cs cost value k) st

/-- `Problem::zero_one_pack`, mutating `self.dp` and the `taked` table. -/
def Problem.zero_one_pack (p : Problem) (cost : List Nat) (value : ℚ) (k : Nat)
    (taked : Nat → Nat) : Problem × (Nat → Nat) :=
  let st := zopPass p.costs cost value k (p.dp, taked)
  ({ p with dp := st.1 }, st.2)

/-- The binary-splitting loop of `Problem::multi_pack` (`while k < num`
plus the final `if num > 0` pass).  The source always enters the loop
with `k = 1` and doubles it, so `0 < k` holds throughout; the conjunct
records this and makes termination evident. -/
def Problem.multiPackGo (p : Problem) (cost : List Nat) (value : ℚ)
    (k num : Nat) (taked : Nat → Nat) : Problem × (Nat → Nat) :=
  if h : 0 < k ∧ k < num then
    Problem.multiPackGo
      (p.zero_one_pack (cost.map fun c => c * k) ((k : ℚ) * value) k taked).1
      cost value (k * 2) (num - k)
      (p.zero_one_pack (cost.map fun c => c * k) ((k : ℚ) * value) k taked).2
  else if 0 < num then
    p.zero_one_pack (cost.map fun c => c * num) ((num : ℚ) * value) num taked
  else (p, taked)
termination_by num
decreasing_by omega

/-- `Problem::multi_pack`: binary splitting starting at `k = 1` with a
fresh all-zero quantity table. -/
def Problem.multi_pack (p : Problem) (cost : List Nat) (value : ℚ)
    (num : Nat) : Problem × (Nat → Nat) :=
  Problem.multiPackGo p cost value 1 num fun _ => 0

/-- The item loop of `Problem::solve` (`for thing in self.things.clone()
{ taked.push(self.multi_pack(...)) }`), as a recursion over the item
list that returns the final problem state and the quantity tables in
input order. -/
def Problem.runItemsGo (p : Problem) : List Thing → Problem × List (Nat → Nat)
  | [] => (p, [])
  | th :: rest =>
      let r := p.multi_pack th.costs th.value th.num
      let s := r.1.runItemsGo rest
      (s.1, r.2 :: s.2)

/-- All quantity tables together with the fully loaded problem state. -/
def Problem.runItems (p : Problem) : Problem × List (Nat → Nat) :=
  p.runItemsGo p.things

/-- The backtracking loop of `Problem::solve` (`for k in
(0..self.things.len()).rev()`), consuming the item/table pairs in
reverse input order: read the quantity at the current state, push it,
and subtract the encoded index of the scaled cost from the state. -/
def Problem.backtrackGo (cs : Costs) :
    List (Thing × (Nat → Nat)) → Nat → List Nat × Nat
  | [], v => ([], v)
  | (th, tb) :: rest, v =>
      let num := tb v
      let r := Problem.backtrackGo cs rest
        (v - cs.to_idx (th.costs.map fun c => c * num))
      (num :: r.1, r.2)

/-- `struct Solution`.  The Rust `BTreeMap<String, usize>` built by
`collect()` from the `(name, num)` pairs in input order is modelled as
that association list itself. -/
structure Solution where
  value : ℚ
  chosen : List (String × Nat)

/-- `Problem::solve`: run every item, back-track from the maximal index,
reverse the collected quantities and pair them with the item names. -/
def Problem.solve (p : Problem) : Solution :=
  let r := p.runItems
  let bt := Problem.backtrackGo p.costs ((p.things.zip r.2).reverse) p.costs.end'
  { value := r.1.dp p.costs.end'
    chosen := (p.things.map Thing.name).zip bt.1.reverse }

/-- `struct UncheckedProblem`: raw parsed input. -/
structure UncheckedProblem where
  things : List Thing
  costs : List Nat

/-- `UncheckedProblem::check`: reject an empty bound vector, then reject
any item whose cost-vector length differs from the bound vector's. -/
def UncheckedProblem.check (up : UncheckedProblem) : Except String Problem :=
  if up.costs.length = 0 then Except.error "must contain at least one cost"
  else if up.things.all fun thing => thing.costs.length == up.costs.length then
    Except.ok (Problem.new up.things up.costs)
  else Except.error "costs does not match"

/-! ### Specification-side notions -/

/-- Componentwise `≤` of equal-length vectors. -/
def vle (u v : List Nat) : Prop :=
  u.length = v.length ∧ ∀ i < u.length, u.getD i 0 ≤ v.getD i 0

instance (u v : List Nat) : Decidable (vle u v) := by
  unfold vle; exact inferInstance

/-- Size of the index space spanned by a bound vector: `Π (bound + 1)`. -/
def prodSize : List Nat → Nat
  | [] => 1
  | b :: bs => (b + 1) * prodSize bs

/-- Positional (big-endian) mixed-radix value of a digit vector; the
reference form of `Costs.to_idx`. -/
def mr : List Nat → List Nat → Nat
  | [], _ => 0
  | _ :: bs, v => v.headD 0 * prodSize bs + mr bs v.tail

/-- Little-endian mixed-radix value, matching the digit order of
`Costs.toCostRev`. -/
def lr : List Nat → List Nat → Nat
  | [], _ => 0
  | b :: bs, v => v.headD 0 + (b + 1) * lr bs v.tail

/-- Product of the `validate_sub` multipliers for one position per entry
of the first list, taken from the running radix list (`headD 0` past its
end). -/
def radProd : List Nat → List Nat → Nat
  | [], _ => 1
  | _ :: bs, rads => (rads.headD 0 + 1) * radProd bs rads.tail

/-- Modelled from the spec (§4.4 step 4): the backtracking contract.
Starting from a state, for each item/table pair in the order consumed
(reverse input order): the chosen quantity is the table entry at the
current state, the scaled cost is componentwise at most the decoded
state (every component of the subtraction stays `≥ 0`), and the next
state — obtained in the code by plain subtraction of encoded indices —
equals the re-encoding of the componentwise difference. -/
def BacktrackOk (cs : Costs) : List (Thing × (Nat → Nat)) → Nat → Prop
  | [], _ => True
  | (th, tb) :: rest, v =>
      vle (th.costs.map fun c => c * tb v) (cs.to_cost v) ∧
      cs.to_idx (th.costs.map fun c => c * tb v) ≤ v ∧
      v - cs.to_idx (th.costs.map fun c => c * tb v) =
        cs.to_idx (List.zipWith (· - ·) (cs.to_cost v)
          (th.costs.map fun c => c * tb v)) ∧
      BacktrackOk cs rest (v - cs.to_idx (th.costs.map fun c => c * tb v))

/-- The per-item coherence invariant tying a value table and a quantity
table to the value table `dp0` in force before the item was processed:
at every reachable state `c`, the quantity recorded there fits inside
the decoded budget, and the value equals `dp0` at the re-encoded
leftover budget plus the quantity times the item value. -/
def Inv (cs : Costs) (cost : List Nat) (value : ℚ) (dp0 : Nat → ℚ)
    (st : DpState) : Prop :=
  ∀ c ≤ cs.end',
    vle (cost.map fun x => x * st.2 c) (cs.to_cost c) ∧
    st.1 c =
      dp0 (cs.to_idx (List.zipWith (· - ·) (cs.to_cost c)
        (cost.map fun x => x * st.2 c))) + (st.2 c : ℚ) * value

/-- Chained item invariant in input order: each quantity table is
coherent (`Inv`) with respect to the value table before its item and the
one after, and is bounded by the item's maximum count. -/
def TablesOk (cs : Costs) : (Nat → ℚ) → List Thing → List (Nat → Nat) →
    (Nat → ℚ) → Prop
  | dp0, [], [], dpF => dpF = dp0
  | dp0, th :: ths, tb :: tbs, dpF =>
      ∃ dp1, Inv cs th.costs th.value dp0 (dp1, tb) ∧ (∀ x, tb x ≤ th.num) ∧
        TablesOk cs dp1 ths tbs dpF
  | _, _, _, _ => False

/-- The same chain presented in the reverse order in which backtracking
consumes it: the head pair is the last item processed. -/
def RevOk (cs : Costs) : List (Thing × (Nat → Nat)) → (Nat → ℚ) →
    (Nat → ℚ) → Prop
  | [], dp0, dpF => dpF = dp0
  | (th, tb) :: rest, dp0, dpF =>
      ∃ dpMid, Inv cs th.costs th.value dpMid (dpF, tb) ∧
        (∀ x, tb x ≤ th.num) ∧ RevOk cs rest dp0 dpMid

/-! ### Small list-index toolkit -/

theorem getD_map_of_lt {α β : Type} (f : α → β) :
    ∀ (l : List α) (i : Nat), i < l.length →
      ∀ (d : β) (d' : α), (l.map f).getD i d = f (l.getD i d')
  | _ :: _, 0, _, _, _ => rfl
  | _ :: l, i + 1, h, d, d' => getD_map_of_lt f l i (by simpa using h) d d'
  | [], _, h, _, _ => absurd h (by simp)

theorem getD_zipWith_of_lt {α β γ : Type} (f : α → β → γ) :
    ∀ (l₁ : List α) (l₂ : List β) (i : Nat), i < l₁.length → i < l₂.length →
      ∀ (d : γ) (d₁ : α) (d₂ : β),
        (List.zipWith f l₁ l₂).getD i d = f (l₁.getD i d₁) (l₂.getD i d₂)
  | _ :: _, _ :: _, 0, _, _, _, _, _ => rfl
  | _ :: l₁, _ :: l₂, i + 1, h₁, h₂, d, d₁, d₂ =>
      getD_zipWith_of_lt f l₁ l₂ i (by simpa using h₁) (by simpa using h₂) d d₁ d₂
  | [], _, _, h₁, _, _, _, _ => absurd h₁ (by simp)
  | _ :: _, [], _, _, h₂, _, _, _ => absurd h₂ (by simp)

theorem getD_zip_of_lt {α β : Type} :
    ∀ (l₁ : List α) (l₂ : List β) (i : Nat), i < l₁.length → i < l₂.length →
      ∀ (d : α × β) (d₁ : α) (d₂ : β),
        (l₁.zip l₂).getD i d = (l₁.getD i d₁, l₂.getD i d₂)
  | _ :: _, _ :: _, 0, _, _, _, _, _ => rfl
  | _ :: l₁, _ :: l₂, i + 1, h₁, h₂, d, d₁, d₂ =>
      getD_zip_of_lt l₁ l₂ i (by simpa using h₁) (by simpa using h₂) d d₁ d₂
  | [], _, _, h₁, _, _, _, _ => absurd h₁ (by simp)
  | _ :: _, [], _, _, h₂, _, _, _ => absurd h₂ (by simp)

theorem natList_ext : ∀ (l₁ l₂ : List Nat), l₁.length = l₂.length →
    (∀ i < l₁.length, l₁.getD i 0 = l₂.getD i 0) → l₁ = l₂
  | [], [], _, _ => rfl
  | a :: l₁, b :: l₂, h, hp => by
      have h0 : a = b := by simpa using hp 0 (by simp)
      have ht : l₁ = l₂ := natList_ext l₁ l₂ (by simpa using h)
        fun i hi => by simpa using hp (i + 1) (by simpa using hi)
      rw [h0, ht]
  | [], _ :: _, h, _ => by simp at h
  | _ :: _, [], h, _ => by simp at h

theorem getD_reverse {α : Type} (l : List α) (i : Nat) (h : i < l.length) (d : α) :
    l.reverse.getD i d = l.getD (l.length - 1 - i) d := by
  rw [List.getD_eq_getElem _ _ (by simpa using h),
    List.getD_eq_getElem _ _ (by omega), List.getElem_reverse]

theorem getD_replicate_of_lt {α : Type} (a : α) :
    ∀ (n i : Nat), i < n → ∀ d, (List.replicate n a).getD i d = a
  | _ + 1, 0, _, _ => rfl
  | n + 1, i + 1, h, d => getD_replicate_of_lt a n i (by omega) d
  | 0, _, h, _ => absurd h (by simp)

theorem getLastD_irrel {α : Type} (y : α) (ys : List α) (d₁ d₂ : α) :
    (y :: ys).getLastD d₁ = (y :: ys).getLastD d₂ := by
  rw [List.getLastD_cons, List.getLastD_cons]

/-! ### Mixed-radix arithmetic: `prodSize`, `mr`, `lr` -/

theorem prodSize_append (l₁ l₂ : List Nat) :
    prodSize (l₁ ++ l₂) = prodSize l₁ * prodSize l₂ := by
  induction l₁ with
  | nil => simp [prodSize]
  | cons b l ih => rw [List.cons_append, prodSize, prodSize, ih, Nat.mul_assoc]

theorem prodSize_reverse : ∀ (l : List Nat), prodSize l.reverse = prodSize l
  | [] => rfl
  | b :: l => by
      simp only [List.reverse_cons, prodSize_append, prodSize, prodSize_reverse l]
      ring

theorem prodSize_pos : ∀ (l : List Nat), 0 < prodSize l
  | [] => Nat.one_pos
  | b :: l => Nat.mul_pos (Nat.succ_pos b) (prodSize_pos l)

theorem lr_append : ∀ (bs ds : List Nat) (b d : Nat), ds.length = bs.length →
    lr (bs ++ [b]) (ds ++ [d]) = lr bs ds + prodSize bs * d
  | [], [], b, d, _ => by simp [lr, prodSize]
  | b₀ :: bs, d₀ :: ds, b, d, h => by
      have ih := lr_append bs ds b d (by simpa using h)
      rw [List.cons_append, List.cons_append, lr, lr, List.headD_cons,
        List.headD_cons, List.tail_cons, List.tail_cons, ih, prodSize]
      ring
  | [], _ :: _, _, _, h => by simp at h
  | _ :: _, [], _, _, h => by simp at h

theorem mr_eq_lr_reverse : ∀ (bs v : List Nat), v.length = bs.length →
    mr bs v = lr bs.reverse v.reverse
  | [], [], _ => rfl
  | b :: bs, x :: v, h => by
      have hl : v.length = bs.length := by simpa using h
      have ih := mr_eq_lr_reverse bs v hl
      simp only [mr, List.headD_cons, List.tail_cons, List.reverse_cons]
      rw [lr_append bs.reverse v.reverse b x (by simpa using hl), ← ih,
        prodSize_reverse]
      ring
  | [], _ :: _, h => by simp at h
  | _ :: _, [], h => by simp at h

theorem toCostRev_length : ∀ (bs : List Nat) (c : Nat),
    (Costs.toCostRev bs c).length = bs.length
  | [], _ => rfl
  | b :: bs, c => by simp [Costs.toCostRev, toCostRev_length bs]

theorem toCostRev_le : ∀ (bs : List Nat) (c : Nat) (i : Nat), i < bs.length →
    (Costs.toCostRev bs c).getD i 0 ≤ bs.getD i 0
  | b :: bs, c, 0, _ => by
      simpa [Costs.toCostRev] using Nat.lt_succ_iff.mp (Nat.mod_lt c (Nat.succ_pos b))
  | b :: bs, c, i + 1, h => by
      simpa [Costs.toCostRev] using toCostRev_le bs (c / (b + 1)) i (by simpa using h)
  | [], _, _, h => absurd h (by simp)

theorem toCostRev_lr : ∀ (bs ds : List Nat), ds.length = bs.length →
    (∀ i < bs.length, ds.getD i 0 ≤ bs.getD i 0) →
    Costs.toCostRev bs (lr bs ds) = ds
  | [], [], _, _ => rfl
  | b :: bs, d :: ds, h, hp => by
      have hd : d ≤ b := by simpa using hp 0 (by simp)
      have hl : ds.length = bs.length := by simpa using h
      have hp' : ∀ i < bs.length, ds.getD i 0 ≤ bs.getD i 0 :=
        fun i hi => by simpa using hp (i + 1) (by simpa using hi)
      have hmod : (d + (b + 1) * lr bs ds) % (b + 1) = d := by
        rw [Nat.add_mul_mod_self_left, Nat.mod_eq_of_lt (by omega)]
      have hdiv : (d + (b + 1) * lr bs ds) / (b + 1) = lr bs ds := by
        rw [Nat.add_mul_div_left d _ (Nat.succ_pos b),
          Nat.div_eq_of_lt (by omega), Nat.zero_add]
      simp only [lr, List.headD_cons, List.tail_cons, Costs.toCostRev, hmod, hdiv,
        toCostRev_lr bs ds hl hp']
  | [], _ :: _, h, _ => by simp at h
  | _ :: _, [], h, _ => by simp at h

theorem lr_toCostRev : ∀ (bs : List Nat) (c : Nat),
    lr bs (Costs.toCostRev bs c) = c % prodSize bs
  | [], c => by simp [lr, Costs.toCostRev, prodSize, Nat.mod_one]
  | b :: bs, c => by
      have key : c % ((b + 1) * prodSize bs) =
          c % (b + 1) + (b + 1) * (c / (b + 1) % prodSize bs) := by
        have h1 : c % ((b + 1) * prodSize bs) % (b + 1) = c % (b + 1) :=
          Nat.mod_mul_right_mod c (b + 1) (prodSize bs)
        have h2 : c % ((b + 1) * prodSize bs) / (b + 1) = c / (b + 1) % prodSize bs :=
          Nat.mod_mul_right_div_self c (b + 1) (prodSize bs)
        rw [← h1, ← h2]
        exact (Nat.mod_add_div _ _).symm
      simp only [Costs.toCostRev, lr, List.headD_cons, List.tail_cons,
        lr_toCostRev bs (c / (b + 1)), prodSize, key]

theorem mr_le : ∀ (bs u v : List Nat), u.length = bs.length → v.length = bs.length →
    (∀ i < bs.length, u.getD i 0 ≤ v.getD i 0) → mr bs u ≤ mr bs v
  | [], _, _, _, _, _ => le_refl _
  | b :: bs, x :: u, y :: v, hu, hv, hp => by
      have h0 : x ≤ y := by simpa using hp 0 (by simp)
      have ih := mr_le bs u v (by simpa using hu) (by simpa using hv)
        fun i hi => by simpa using hp (i + 1) (by simpa using hi)
      simp only [mr, List.headD_cons, List.tail_cons]
      exact Nat.add_le_add (Nat.mul_le_mul_right _ h0) ih
  | b :: bs, [], _, hu, _, _ => by simp at hu
  | b :: bs, _ :: _, [], _, hv, _ => by simp at hv

theorem mr_sub_add : ∀ (bs u v : List Nat), u.length = bs.length →
    v.length = bs.length → (∀ i < bs.length, u.getD i 0 ≤ v.getD i 0) →
    mr bs (List.zipWith (· - ·) v u) + mr bs u = mr bs v
  | [], _, _, _, _, _ => by simp [mr]
  | b :: bs, x :: u, y :: v, hu, hv, hp => by
      have h0 : x ≤ y := by simpa using hp 0 (by simp)
      have ih := mr_sub_add bs u v (by simpa using hu) (by simpa using hv)
        fun i hi => by simpa using hp (i + 1) (by simpa using hi)
      simp only [List.zipWith_cons_cons, mr, List.headD_cons, List.tail_cons]
      have hxy : (y - x) * prodSize bs + x * prodSize bs = y * prodSize bs := by
        rw [← Nat.add_mul, Nat.sub_add_cancel h0]
      have hre : (y - x) * prodSize bs + mr bs (List.zipWith (· - ·) v u) +
          (x * prodSize bs + mr bs u) =
          ((y - x) * prodSize bs + x * prodSize bs) +
            (mr bs (List.zipWith (· - ·) v u) + mr bs u) := by ring
      rw [hre, hxy, ih]
  | b :: bs, [], _, hu, _, _ => by simp at hu
  | b :: bs, _ :: _, [], _, hv, _ => by simp at hv

theorem mr_self : ∀ (bs : List Nat), mr bs bs + 1 = prodSize bs
  | [] => rfl
  | b :: bs => by
      simp only [mr, List.headD_cons, List.tail_cons, prodSize]
      rw [Nat.add_assoc, mr_self bs]
      ring

/-! ### `to_idx` agrees with the positional mixed-radix value -/

theorem foldl_idx_shift : ∀ (l : List (Nat × Nat)) (a : Nat),
    l.foldl (fun ans p => (ans + p.1) * (p.2 + 1)) a =
      a * prodSize (l.map Prod.snd) +
        l.foldl (fun ans p => (ans + p.1) * (p.2 + 1)) 0
  | [], a => by simp [prodSize]
  | p :: l, a => by
      rw [List.foldl_cons, List.foldl_cons,
        foldl_idx_shift l ((a + p.1) * (p.2 + 1)),
        foldl_idx_shift l ((0 + p.1) * (p.2 + 1)), List.map_cons, prodSize]
      ring

theorem to_idx_fold_eq : ∀ (bs v : List Nat), v.length = bs.length → bs ≠ [] →
    (v.zip bs.tail).foldl (fun ans p => (ans + p.1) * (p.2 + 1)) 0 +
      v.getLastD 0 = mr bs v
  | [b], [x], _, _ => by
      simp [mr, prodSize]
  | b :: b' :: bs, x :: x' :: xs, h, _ => by
      have hlen : (x' :: xs).length = (b' :: bs).length := by simpa using h
      have ih := to_idx_fold_eq (b' :: bs) (x' :: xs) hlen (by simp)
      simp only [List.tail_cons] at ih ⊢
      simp only [List.getLastD_cons] at ih ⊢
      rw [List.zip_cons_cons, List.foldl_cons,
        foldl_idx_shift _ ((0 + x) * (b' + 1)),
        List.map_snd_zip (x' :: xs) bs (by simp at hlen ⊢; omega)]
      have hmr : mr (b :: b' :: bs) (x :: x' :: xs) =
          x * ((b' + 1) * prodSize bs) + mr (b' :: bs) (x' :: xs) := by
        simp only [mr, List.headD_cons, List.tail_cons, prodSize]
      rw [hmr, ← ih]
      ring
  | [], _, _, hne => absurd rfl hne
  | [b], [], h, _ => by simp at h
  | [b], _ :: _ :: _, h, _ => by simp at h
  | _ :: _ :: _, [], h, _ => by simp at h
  | _ :: _ :: _, [_], h, _ => by simp at h

theorem Costs.to_idx_eq (cs : Costs) (v : List Nat)
    (h : v.length = cs.bounds.length) (hB : cs.bounds ≠ []) :
    cs.to_idx v = mr cs.bounds v :=
  to_idx_fold_eq cs.bounds v h hB

theorem Costs.end'_eq (cs : Costs) (hB : cs.bounds ≠ []) :
    cs.end' = mr cs.bounds cs.bounds :=
  Costs.to_idx_eq cs cs.bounds rfl hB

theorem Costs.end'_succ (cs : Costs) (hB : cs.bounds ≠ []) :
    cs.end' + 1 = prodSize cs.bounds := by
  rw [Costs.end'_eq cs hB, mr_self]

/-! ### `to_cost` facts and the encode/decode round trips -/

theorem Costs.to_cost_length (cs : Costs) (c : Nat) :
    (cs.to_cost c).length = cs.bounds.length := by
  simp [Costs.to_cost, toCostRev_length]

theorem Costs.to_cost_le (cs : Costs) (c : Nat) : vle (cs.to_cost c) cs.bounds := by
  refine ⟨cs.to_cost_length c, fun i hi => ?_⟩
  rw [cs.to_cost_length c] at hi
  unfold Costs.to_cost
  have hlen : (Costs.toCostRev cs.bounds.reverse c).length = cs.bounds.length := by
    simp [toCostRev_length]
  rw [getD_reverse _ i (by omega) 0, hlen]
  have hrev : cs.bounds.getD i 0 =
      cs.bounds.reverse.getD (cs.bounds.length - 1 - i) 0 := by
    rw [getD_reverse cs.bounds (cs.bounds.length - 1 - i) (by omega) 0]
    congr 1
    omega
  rw [hrev]
  exact toCostRev_le cs.bounds.reverse c (cs.bounds.length - 1 - i) (by simp; omega)

theorem Costs.to_idx_to_cost (cs : Costs) (hB : cs.bounds ≠ []) (c : Nat)
    (hc : c ≤ cs.end') : cs.to_idx (cs.to_cost c) = c := by
  rw [Costs.to_idx_eq cs _ (cs.to_cost_length c) hB,
    mr_eq_lr_reverse cs.bounds (cs.to_cost c) (cs.to_cost_length c)]
  unfold Costs.to_cost
  rw [List.reverse_reverse, lr_toCostRev, prodSize_reverse]
  have := cs.end'_succ hB
  exact Nat.mod_eq_of_lt (by omega)

theorem Costs.to_cost_to_idx (cs : Costs) (hB : cs.bounds ≠ []) (v : List Nat)
    (hlen : v.length = cs.bounds.length)
    (hle : ∀ i < cs.bounds.length, v.getD i 0 ≤ cs.bounds.getD i 0) :
    cs.to_cost (cs.to_idx v) = v := by
  rw [Costs.to_idx_eq cs v hlen hB, mr_eq_lr_reverse cs.bounds v hlen]
  unfold Costs.to_cost
  rw [toCostRev_lr cs.bounds.reverse v.reverse (by simp [hlen]), List.reverse_reverse]
  intro i hi
  simp only [List.length_reverse] at hi
  rw [getD_reverse v i (by omega) 0, getD_reverse cs.bounds i hi 0, hlen]
  exact hle (cs.bounds.length - 1 - i) (by omega)

theorem Costs.to_idx_mono (cs : Costs) (hB : cs.bounds ≠ []) (u v : List Nat)
    (hu : u.length = cs.bounds.length) (hv : v.length = cs.bounds.length)
    (hp : ∀ i < cs.bounds.length, u.getD i 0 ≤ v.getD i 0) :
    cs.to_idx u ≤ cs.to_idx v := by
  rw [Costs.to_idx_eq cs u hu hB, Costs.to_idx_eq cs v hv hB]
  exact mr_le cs.bounds u v hu hv hp

theorem Costs.to_idx_le_end' (cs : Costs) (hB : cs.bounds ≠ []) (v : List Nat)
    (hlen : v.length = cs.bounds.length)
    (hle : ∀ i < cs.bounds.length, v.getD i 0 ≤ cs.bounds.getD i 0) :
    cs.to_idx v ≤ cs.end' :=
  cs.to_idx_mono hB v cs.bounds hlen rfl hle

theorem Costs.to_idx_sub_add (cs : Costs) (hB : cs.bounds ≠ []) (u w : List Nat)
    (hu : u.length = cs.bounds.length) (hw : w.length = cs.bounds.length)
    (hp : ∀ i < cs.bounds.length, u.getD i 0 ≤ w.getD i 0) :
    cs.to_idx (List.zipWith (· - ·) w u) + cs.to_idx u = cs.to_idx w := by
  rw [Costs.to_idx_eq cs _ (by simp [hu, hw]) hB, Costs.to_idx_eq cs u hu hB,
    Costs.to_idx_eq cs w hw hB]
  exact mr_sub_add cs.bounds u w hu hw hp

/-! ### `validate_sub` characterisation -/

theorem validateSubGo_none_iff : ∀ (bound cost rads : List Nat) (a : Nat),
    bound.length = cost.length →
    (Costs.validateSubGo bound cost rads a = none ↔
      ∃ i < bound.length, bound.getD i 0 < cost.getD i 0)
  | [], [], _, _, _ => by simp [Costs.validateSubGo]
  | b :: bound, c :: cost, rads, a, h => by
      unfold Costs.validateSubGo
      by_cases hbc : b < c
      · simp only [if_pos hbc]
        constructor
        · intro _
          exact ⟨0, by simp, by simpa using hbc⟩
        · intro _
          trivial
      · rw [if_neg hbc,
          validateSubGo_none_iff bound cost rads.tail _ (by simpa using h)]
        constructor
        · rintro ⟨i, hi, hlt⟩
          exact ⟨i + 1, by simpa using hi, by simpa using hlt⟩
        · rintro ⟨i, hi, hlt⟩
          cases i with
          | zero => exact absurd (by simpa using hlt) hbc
          | succ j => exact ⟨j, by simpa using hi, by simpa using hlt⟩
  | [], _ :: _, _, _, h => by simp at h
  | _ :: _, [], _, _, h => by simp at h

theorem radProd_eq_prodSize : ∀ (bound rads : List Nat),
    bound.length = rads.length + 1 → radProd bound rads = prodSize rads
  | [_], [], _ => by simp [radProd, prodSize]
  | x :: y :: bs, r :: rs, h => by
      have ih := radProd_eq_prodSize (y :: bs) rs (by simpa using h)
      simp only [radProd, List.headD_cons, List.tail_cons, prodSize] at ih ⊢
      rw [ih]
  | [], _, h => by simp at h
  | [_], _ :: _, h => by simp at h
  | _ :: _ :: _, [], h => by simp at h

theorem validateSubGo_shift : ∀ (bound cost rads : List Nat) (a : Nat),
    Costs.validateSubGo bound cost rads a =
      (Costs.validateSubGo bound cost rads 0).map
        fun x => a * radProd bound rads + x
  | [], cost, rads, a => by simp [Costs.validateSubGo, radProd]
  | _ :: _, [], _, _ => by simp [Costs.validateSubGo]
  | b :: bs, c :: cost, rads, a => by
      unfold Costs.validateSubGo
      by_cases hbc : b < c
      · simp [hbc]
      · rw [if_neg hbc, if_neg hbc,
          validateSubGo_shift bs cost rads.tail ((a + (b - c)) * (rads.headD 0 + 1)),
          validateSubGo_shift bs cost rads.tail ((0 + (b - c)) * (rads.headD 0 + 1))]
        cases Costs.validateSubGo bs cost rads.tail 0 with
        | none => rfl
        | some x =>
            simp only [Option.map_some', Option.some_inj, radProd]
            ring

theorem validateSubGo_some : ∀ (bs bound cost : List Nat),
    bound.length = bs.length → cost.length = bs.length →
    (∀ i < bound.length, cost.getD i 0 ≤ bound.getD i 0) →
    Costs.validateSubGo bound cost bs.tail 0 =
      some (mr bs (List.zipWith (· - ·) bound cost))
  | [], [], [], _, _, _ => by simp [Costs.validateSubGo, mr]
  | b :: bs, x :: bound, c :: cost, hb, hc, hp => by
      have h0 : c ≤ x := by simpa using hp 0 (by simp)
      simp only [List.tail_cons]
      unfold Costs.validateSubGo
      rw [if_neg (by omega)]
      cases bs with
      | nil =>
          have hb' : bound = [] := List.length_eq_zero.mp (by simpa using hb)
          have hc' : cost = [] := List.length_eq_zero.mp (by simpa using hc)
          subst hb'
          subst hc'
          simp [Costs.validateSubGo, mr, prodSize]
      | cons b' bs' =>
          have hb' : bound.length = (b' :: bs').length := by simpa using hb
          have hc' : cost.length = (b' :: bs').length := by simpa using hc
          have hp' : ∀ i < bound.length, cost.getD i 0 ≤ bound.getD i 0 :=
            fun i hi => by
              simpa using hp (i + 1) (by simp only [List.length_cons]; omega)
          have ih := validateSubGo_some (b' :: bs') bound cost hb' hc' hp'
          simp only [List.tail_cons, List.headD_cons] at ih ⊢
          rw [validateSubGo_shift bound cost bs' ((0 + (x - c)) * (b' + 1)), ih]
          have hrad : radProd bound bs' = prodSize bs' :=
            radProd_eq_prodSize bound bs' (by simpa using hb)
          simp only [Option.map_some', Option.some_inj, List.headD_cons,
            List.zipWith_cons_cons, mr, List.tail_cons, prodSize, hrad]
          ring
  | [], _, _, hb, hc, _ => by
      simp at hb hc
      subst hb
      subst hc
      simp [Costs.validateSubGo, mr]
  | _ :: _, [], _, hb, _, _ => by simp at hb
  | _ :: _, _ :: _, [], _, hc, _ => by simp at hc

theorem Costs.validate_sub_none_iff (cs : Costs) (bound cost : List Nat)
    (h : bound.length = cost.length) :
    cs.validate_sub bound cost = none ↔
      ∃ i < bound.length, bound.getD i 0 < cost.getD i 0 :=
  validateSubGo_none_iff bound cost cs.bounds.tail 0 h

theorem Costs.validate_sub_some (cs : Costs) (bound cost : List Nat)
    (hb : bound.length = cs.bounds.length) (hc : cost.length = cs.bounds.length)
    (hB : cs.bounds ≠ [])
    (hp : ∀ i < bound.length, cost.getD i 0 ≤ bound.getD i 0) :
    cs.validate_sub bound cost =
      some (cs.to_idx (List.zipWith (· - ·) bound cost)) := by
  unfold Costs.validate_sub
  rw [validateSubGo_some cs.bounds bound cost hb hc hp,
    Costs.to_idx_eq cs _ (by simp [hb, hc]) hB]

theorem Costs.validate_sub_some_inv (cs : Costs) (bound cost : List Nat)
    (hb : bound.length = cs.bounds.length) (hc : cost.length = cs.bounds.length)
    (hB : cs.bounds ≠ []) (idx : Nat)
    (h : cs.validate_sub bound cost = some idx) :
    (∀ i < bound.length, cost.getD i 0 ≤ bound.getD i 0) ∧
      idx = cs.to_idx (List.zipWith (· - ·) bound cost) := by
  by_cases hp : ∀ i < bound.length, cost.getD i 0 ≤ bound.getD i 0
  · refine ⟨hp, ?_⟩
    rw [cs.validate_sub_some bound cost hb hc hB hp] at h
    exact (Option.some_inj.mp h).symm
  · exfalso
    push_neg at hp
    obtain ⟨i, hi, hlt⟩ := hp
    rw [(cs.validate_sub_none_iff bound cost (by omega)).mpr ⟨i, hi, hlt⟩] at h
    exact Option.noConfusion h

/-! ### One update step of `zero_one_pack` -/

theorem zopStep_eq_or (cs : Costs) (cost : List Nat) (value : ℚ) (k : Nat)
    (st : DpState) (c : Nat) :
    zopStep cs cost value k st c = st ∨
      ∃ idx, cs.validate_sub (cs.to_cost c) cost = some idx ∧
        st.1 c < st.1 idx + value ∧
        zopStep cs cost value k st c =
          (Function.update st.1 c (st.1 idx + value),
           Function.update st.2 c (st.2 idx + k)) := by
  unfold zopStep
  cases hvs : cs.validate_sub (cs.to_cost c) cost with
  | none => exact Or.inl rfl
  | some idx =>
      by_cases hlt : st.1 c < st.1 idx + value
      · exact Or.inr ⟨idx, rfl, hlt, if_pos hlt⟩
      · exact Or.inl (if_neg hlt)

theorem zopStep_apply_ne (cs : Costs) (cost : List Nat) (value : ℚ) (k : Nat)
    (st : DpState) (c : Nat) (x : Nat) (hx : x ≠ c) :
    (zopStep cs cost value k st c).1 x = st.1 x ∧
      (zopStep cs cost value k st c).2 x = st.2 x := by
  rcases zopStep_eq_or cs cost value k st c with h | ⟨idx, _, _, h⟩
  · rw [h]
    exact ⟨rfl, rfl⟩
  · rw [h]
    exact ⟨Function.update_noteq hx _ _, Function.update_noteq hx _ _⟩

theorem zopStep_dp_mono (cs : Costs) (cost : List Nat) (value : ℚ) (k : Nat)
    (st : DpState) (c : Nat) (x : Nat) :
    st.1 x ≤ (zopStep cs cost value k st c).1 x := by
  rcases zopStep_eq_or cs cost value k st c with h | ⟨idx, _, hlt, h⟩
  · rw [h]
  · rw [h]
    by_cases hx : x = c
    · subst hx
      simp only [Function.update_same]
      exact le_of_lt hlt
    · simp only [Function.update_noteq hx]
      exact le_refl _

theorem foldl_zop_dp_mono (cs : Costs) (cost : List Nat) (value : ℚ) (k : Nat) :
    ∀ (l : List Nat) (st : DpState) (x : Nat),
      st.1 x ≤ (l.foldl (zopStep cs cost value k) st).1 x
  | [], _, _ => le_refl _
  | c :: l, st, x =>
      le_trans (zopStep_dp_mono cs cost value k st c x)
        (foldl_zop_dp_mono cs cost value k l (zopStep cs cost value k st c) x)

theorem zopPass_dp_mono (cs : Costs) (cost : List Nat) (value : ℚ) (k : Nat)
    (st : DpState) (x : Nat) : st.1 x ≤ (zopPass cs cost value k st).1 x :=
  foldl_zop_dp_mono cs cost value k _ st x

/-- Unpacking a successful `validate_sub` against a decoded state: the
spent vector fits, the result is the encoded difference, it decodes back
to the difference, and it stays `≤ end'`. -/
theorem Costs.spend_facts (cs : Costs) (hB : cs.bounds ≠ []) (c : Nat)
    (sc : List Nat) (hsc : sc.length = cs.bounds.length) (idx : Nat)
    (h : cs.validate_sub (cs.to_cost c) sc = some idx) :
    (∀ i < cs.bounds.length, sc.getD i 0 ≤ (cs.to_cost c).getD i 0) ∧
      idx = cs.to_idx (List.zipWith (· - ·) (cs.to_cost c) sc) ∧
      cs.to_cost idx = List.zipWith (· - ·) (cs.to_cost c) sc ∧
      idx ≤ cs.end' := by
  obtain ⟨hple, hidx⟩ :=
    cs.validate_sub_some_inv (cs.to_cost c) sc (cs.to_cost_length c) hsc hB idx h
  have hbl := cs.to_cost_length c
  have hdl : (List.zipWith (· - ·) (cs.to_cost c) sc).length = cs.bounds.length := by
    simp [hbl, hsc]
  have hdle : ∀ i < cs.bounds.length,
      (List.zipWith (· - ·) (cs.to_cost c) sc).getD i 0 ≤ cs.bounds.getD i 0 := by
    intro i hi
    rw [getD_zipWith_of_lt _ _ _ i (by omega) (by omega) 0 0 0]
    exact le_trans (Nat.sub_le _ _) ((cs.to_cost_le c).2 i (by omega))
  refine ⟨fun i hi => hple i (by omega), hidx, ?_, ?_⟩
  · rw [hidx]
    exact cs.to_cost_to_idx hB _ hdl hdle
  · rw [hidx]
    exact cs.to_idx_le_end' hB _ hdl hdle

theorem Costs.spend_le_self (cs : Costs) (hB : cs.bounds ≠ []) (c : Nat)
    (hc : c ≤ cs.end') (sc : List Nat) (hsc : sc.length = cs.bounds.length)
    (idx : Nat) (h : cs.validate_sub (cs.to_cost c) sc = some idx) : idx ≤ c := by
  obtain ⟨hple, hidx, -, -⟩ := cs.spend_facts hB c sc hsc idx h
  rw [hidx]
  calc cs.to_idx (List.zipWith (· - ·) (cs.to_cost c) sc)
      ≤ cs.to_idx (cs.to_cost c) := by
        apply cs.to_idx_mono hB _ _ (by simp [cs.to_cost_length, hsc])
          (cs.to_cost_length c)
        intro i hi
        rw [getD_zipWith_of_lt _ _ _ i (by simp [cs.to_cost_length]; omega)
          (by omega) 0 0 0]
        exact Nat.sub_le _ _
    _ = c := cs.to_idx_to_cost hB c hc

/-! ### The coherence invariant is preserved by every pass -/

theorem inv_zopStep (cs : Costs) (hB : cs.bounds ≠ []) (cost : List Nat)
    (hlen : cost.length = cs.bounds.length) (value : ℚ) (dp0 : Nat → ℚ)
    (b : Nat) (st : DpState) (hst : Inv cs cost value dp0 st) (c₀ : Nat) :
    Inv cs cost value dp0
      (zopStep cs (cost.map fun x => x * b) ((b : ℚ) * value) b st c₀) := by
  rcases zopStep_eq_or cs (cost.map fun x => x * b) ((b : ℚ) * value) b st c₀ with
    h | ⟨idx, hvs, hlt, h⟩
  · rw [h]
    exact hst
  · rw [h]
    intro c hc
    by_cases hcc : c = c₀
    · subst hcc
      have hsc : (cost.map fun x => x * b).length = cs.bounds.length := by
        simp [hlen]
      obtain ⟨hple, hidx, htc, hidxle⟩ := cs.spend_facts hB c _ hsc idx hvs
      obtain ⟨⟨hL1, hP1⟩, hV1⟩ := hst idx hidxle
      have hbl := cs.to_cost_length c
      have htak : (Function.update st.2 c (st.2 idx + b)) c = st.2 idx + b :=
        Function.update_same c _ st.2
      constructor
      · -- componentwise bound for the increased quantity
        refine ⟨by simp [hlen, hbl], ?_⟩
        intro i hi
        simp only [Function.update_same]
        simp only [List.length_map, hlen] at hi
        rw [getD_map_of_lt _ cost i (by omega) 0 0]
        have hb1 : cost.getD i 0 * st.2 idx ≤ (cs.to_cost idx).getD i 0 := by
          have := hP1 i (by simp [hlen]; omega)
          rwa [getD_map_of_lt _ cost i (by omega) 0 0] at this
        have hb2 : (cs.to_cost idx).getD i 0 =
            (cs.to_cost c).getD i 0 - cost.getD i 0 * b := by
          rw [htc, getD_zipWith_of_lt _ _ _ i (by omega) (by simp [hlen]; omega) 0 0 0,
            getD_map_of_lt _ cost i (by omega) 0 0]
        have hb3 : cost.getD i 0 * b ≤ (cs.to_cost c).getD i 0 := by
          have := hple i (by omega)
          rwa [getD_map_of_lt _ cost i (by omega) 0 0] at this
        have hdistrib : cost.getD i 0 * (st.2 idx + b) =
            cost.getD i 0 * st.2 idx + cost.getD i 0 * b := Nat.mul_add _ _ _
        omega
      · -- value equation for the increased quantity
        simp only [Function.update_same]
        have hlist : List.zipWith (· - ·) (cs.to_cost idx)
            (cost.map fun x => x * st.2 idx) =
            List.zipWith (· - ·) (cs.to_cost c)
              (cost.map fun x => x * (st.2 idx + b)) := by
          apply natList_ext
          · simp [cs.to_cost_length, hlen]
          · intro i hi
            simp only [List.length_zipWith, List.length_map, hlen,
              cs.to_cost_length, Nat.min_self] at hi
            rw [getD_zipWith_of_lt _ _ _ i (by simp [cs.to_cost_length, hlen]; omega)
                (by simp [hlen]; omega) 0 0 0,
              getD_zipWith_of_lt _ _ _ i (by simp [cs.to_cost_length]; omega)
                (by simp [hlen]; omega) 0 0 0,
              getD_map_of_lt _ cost i (by omega) 0 0,
              getD_map_of_lt _ cost i (by omega) 0 0]
            have hb2 : (cs.to_cost idx).getD i 0 =
                (cs.to_cost c).getD i 0 - cost.getD i 0 * b := by
              rw [htc, getD_zipWith_of_lt _ _ _ i (by simp [cs.to_cost_length]; omega)
                  (by simp [hlen]; omega) 0 0 0,
                getD_map_of_lt _ cost i (by omega) 0 0]
            have hdistrib : cost.getD i 0 * (st.2 idx + b) =
                cost.getD i 0 * st.2 idx + cost.getD i 0 * b := Nat.mul_add _ _ _
            omega
        rw [← hlist, hV1]
        push_cast
        ring
    · obtain ⟨h1, h2⟩ : (Function.update st.1 c₀ (st.1 idx + (b : ℚ) * value)) c = st.1 c ∧
          (Function.update st.2 c₀ (st.2 idx + b)) c = st.2 c :=
        ⟨Function.update_noteq hcc _ _, Function.update_noteq hcc _ _⟩
      simp only [h1, h2]
      exact hst c hc

theorem inv_foldl (cs : Costs) (hB : cs.bounds ≠ []) (cost : List Nat)
    (hlen : cost.length = cs.bounds.length) (value : ℚ) (dp0 : Nat → ℚ)
    (b : Nat) :
    ∀ (l : List Nat) (st : DpState), Inv cs cost value dp0 st →
      Inv cs cost value dp0
        (l.foldl (zopStep cs (cost.map fun x => x * b) ((b : ℚ) * value) b) st)
  | [], _, h => h
  | c :: l, st, h =>
      inv_foldl cs hB cost hlen value dp0 b l _
        (inv_zopStep cs hB cost hlen value dp0 b st h c)

theorem inv_zopPass (cs : Costs) (hB : cs.bounds ≠ []) (cost : List Nat)
    (hlen : cost.length = cs.bounds.length) (value : ℚ) (dp0 : Nat → ℚ)
    (b : Nat) (st : DpState) (h : Inv cs cost value dp0 st) :
    Inv cs cost value dp0
      (zopPass cs (cost.map fun x => x * b) ((b : ℚ) * value) b st) :=
  inv_foldl cs hB cost hlen value dp0 b _ st h

theorem inv_init (cs : Costs) (hB : cs.bounds ≠ []) (cost : List Nat)
    (hlen : cost.length = cs.bounds.length) (value : ℚ) (dp0 : Nat → ℚ) :
    Inv cs cost value dp0 (dp0, fun _ => 0) := by
  intro c hc
  have hbl := cs.to_cost_length c
  constructor
  · refine ⟨by simp [hlen, hbl], ?_⟩
    intro i hi
    simp only [List.length_map, hlen] at hi
    rw [getD_map_of_lt _ cost i (by omega) 0 0]
    simp
  · have hz : List.zipWith (· - ·) (cs.to_cost c) (cost.map fun x => x * 0) =
        cs.to_cost c := by
      apply natList_ext
      · simp [hbl, hlen]
      · intro i hi
        simp only [List.length_zipWith, List.length_map, hlen, hbl,
          Nat.min_self] at hi
        rw [getD_zipWith_of_lt _ _ _ i (by omega) (by simp [hlen]; omega) 0 0 0,
          getD_map_of_lt _ cost i (by omega) 0 0]
        simp
    rw [hz, cs.to_idx_to_cost hB c hc]
    simp

/-! ### The quantity table grows by at most the pass label -/

theorem zop_taked_aux (cs : Costs) (hB : cs.bounds ≠ []) (sc : List Nat)
    (hsc : sc.length = cs.bounds.length) (sv : ℚ) (b : Nat) (a : Nat)
    (st0 : DpState) (h0 : ∀ x, st0.2 x ≤ a) :
    ∀ (j : Nat), j ≤ cs.end' → ∀ st : DpState,
      (∀ x ≤ j, st.2 x = st0.2 x) → (∀ x, st.2 x ≤ a + b) →
      ∀ x, (((List.range (j + 1)).reverse).foldl (zopStep cs sc sv b) st).2 x ≤
        a + b
  | 0, hj, st, heq, hle, x => by
      have hr : (List.range 1).reverse = [0] := rfl
      rw [hr, List.foldl_cons, List.foldl_nil]
      rcases zopStep_eq_or cs sc sv b st 0 with h | ⟨idx, hvs, _, h⟩
      · rw [h]
        exact hle x
      · rw [h]
        by_cases hx : x = 0
        · subst hx
          simp only [Function.update_same]
          have hidx : idx ≤ 0 := cs.spend_le_self hB 0 hj sc hsc idx hvs
          have : st.2 idx = st0.2 idx := heq idx (by omega)
          have := h0 idx
          omega
        · simp only [Function.update_noteq hx]
          exact hle x
  | j + 1, hj, st, heq, hle, x => by
      have hr : (List.range (j + 1 + 1)).reverse =
          (j + 1) :: (List.range (j + 1)).reverse := by
        rw [List.range_succ, List.reverse_append]
        rfl
      rw [hr, List.foldl_cons]
      have hst' : ∀ y ≤ j, (zopStep cs sc sv b st (j + 1)).2 y = st0.2 y := by
        intro y hy
        rw [(zopStep_apply_ne cs sc sv b st (j + 1) y (by omega)).2]
        exact heq y (by omega)
      have hle' : ∀ y, (zopStep cs sc sv b st (j + 1)).2 y ≤ a + b := by
        intro y
        rcases zopStep_eq_or cs sc sv b st (j + 1) with h | ⟨idx, hvs, _, h⟩
        · rw [h]
          exact hle y
        · rw [h]
          by_cases hy : y = j + 1
          · subst hy
            simp only [Function.update_same]
            have hidx : idx ≤ j + 1 := cs.spend_le_self hB (j + 1) hj sc hsc idx hvs
            have h1 : st.2 idx = st0.2 idx := heq idx hidx
            have h2 := h0 idx
            omega
          · simp only [Function.update_noteq hy]
            exact hle y
      exact zop_taked_aux cs hB sc hsc sv b a st0 h0 j (by omega) _ hst' hle' x

theorem zopPass_taked_le (cs : Costs) (hB : cs.bounds ≠ []) (sc : List Nat)
    (hsc : sc.length = cs.bounds.length) (sv : ℚ) (b : Nat) (a : Nat)
    (st : DpState) (hst : ∀ x, st.2 x ≤ a) :
    ∀ x, (zopPass cs sc sv b st).2 x ≤ a + b := by
  intro x
  exact zop_taked_aux cs hB sc hsc sv b a st hst cs.end' (le_refl _) st
    (fun _ _ => rfl) (fun y => le_trans (hst y) (by omega)) x

/-! ### `multi_pack` packages the invariant -/

theorem multiPackGo_preserve :
    ∀ (num k : Nat) (p : Problem) (cost : List Nat) (value : ℚ)
      (taked : Nat → Nat),
      (p.multiPackGo cost value k num taked).1.costs = p.costs ∧
        (p.multiPackGo cost value k num taked).1.things = p.things := by
  intro num
  induction num using Nat.strong_induction_on with
  | _ num ih =>
      intro k p cost value taked
      rw [Problem.multiPackGo]
      split
      · next h =>
          exact ih (num - k) (by omega) (k * 2)
            (p.zero_one_pack (cost.map fun c => c * k) ((k : ℚ) * value) k taked).1
            cost value
            (p.zero_one_pack (cost.map fun c => c * k) ((k : ℚ) * value) k taked).2
      · split
        · exact ⟨rfl, rfl⟩
        · exact ⟨rfl, rfl⟩

theorem multiPackGo_inv :
    ∀ (num k : Nat) (p : Problem) (cost : List Nat) (value : ℚ)
      (dp0 : Nat → ℚ) (taked : Nat → Nat),
      p.costs.bounds ≠ [] → cost.length = p.costs.bounds.length →
      Inv p.costs cost value dp0 (p.dp, taked) →
      Inv p.costs cost value dp0
        ((p.multiPackGo cost value k num taked).1.dp,
         (p.multiPackGo cost value k num taked).2) := by
  intro num
  induction num using Nat.strong_induction_on with
  | _ num ih =>
      intro k p cost value dp0 taked hB hlen hInv
      rw [Problem.multiPackGo]
      split
      · next h =>
          have hz := inv_zopPass p.costs hB cost hlen value dp0 k (p.dp, taked) hInv
          exact ih (num - k) (by omega) (k * 2)
            (p.zero_one_pack (cost.map fun c => c * k) ((k : ℚ) * value) k taked).1
            cost value dp0
            (p.zero_one_pack (cost.map fun c => c * k) ((k : ℚ) * value) k taked).2
            hB hlen hz
      · split
        · next hnum =>
            exact inv_zopPass p.costs hB cost hlen value dp0 num (p.dp, taked) hInv
        · exact hInv

theorem multiPackGo_taked_le :
    ∀ (num k : Nat) (p : Problem) (cost : List Nat) (value : ℚ)
      (taked : Nat → Nat) (a : Nat),
      p.costs.bounds ≠ [] → cost.length = p.costs.bounds.length →
      (∀ x, taked x ≤ a) →
      ∀ x, (p.multiPackGo cost value k num taked).2 x ≤ a + num := by
  intro num
  induction num using Nat.strong_induction_on with
  | _ num ih =>
      intro k p cost value taked a hB hlen hta x
      rw [Problem.multiPackGo]
      split
      · next h =>
          have hpass : ∀ y, (zopPass p.costs (cost.map fun c => c * k)
              ((k : ℚ) * value) k (p.dp, taked)).2 y ≤ a + k :=
            zopPass_taked_le p.costs hB _ (by simp [hlen]) _ k a (p.dp, taked) hta
          have hrec := ih (num - k) (by omega) (k * 2)
            (p.zero_one_pack (cost.map fun c => c * k) ((k : ℚ) * value) k taked).1
            cost value
            (p.zero_one_pack (cost.map fun c => c * k) ((k : ℚ) * value) k taked).2
            (a + k) hB hlen hpass x
          omega
      · split
        · next hnum =>
            exact zopPass_taked_le p.costs hB _ (by simp [hlen]) _ num a
              (p.dp, taked) hta x
        · exact le_trans (hta x) (by omega)

theorem multi_pack_spec (p : Problem) (cost : List Nat) (value : ℚ) (num : Nat)
    (hB : p.costs.bounds ≠ []) (hlen : cost.length = p.costs.bounds.length) :
    Inv p.costs cost value p.dp
        ((p.multi_pack cost value num).1.dp, (p.multi_pack cost value num).2) ∧
      (∀ x, (p.multi_pack cost value num).2 x ≤ num) ∧
      (p.multi_pack cost value num).1.costs = p.costs ∧
      (p.multi_pack cost value num).1.things = p.things := by
  unfold Problem.multi_pack
  refine ⟨?_, ?_, (multiPackGo_preserve num 1 p cost value _).1,
    (multiPackGo_preserve num 1 p cost value _).2⟩
  · exact multiPackGo_inv num 1 p cost value p.dp _ hB hlen
      (inv_init p.costs hB cost hlen value p.dp)
  · intro x
    have := multiPackGo_taked_le num 1 p cost value (fun _ => 0) 0 hB hlen
      (fun _ => le_refl 0) x
    omega

/-! ### Running all items builds the chained invariant -/

theorem multi_pack_preserve (p : Problem) (cost : List Nat) (value : ℚ)
    (num : Nat) :
    (p.multi_pack cost value num).1.costs = p.costs ∧
      (p.multi_pack cost value num).1.things = p.things := by
  unfold Problem.multi_pack
  exact multiPackGo_preserve num 1 p cost value _

theorem runItemsGo_length : ∀ (ths : List Thing) (p : Problem),
    (p.runItemsGo ths).2.length = ths.length
  | [], _ => rfl
  | th :: rest, p => by
      simp only [Problem.runItemsGo, List.length_cons]
      rw [runItemsGo_length rest]

theorem runItemsGo_tablesOk : ∀ (ths : List Thing) (p : Problem),
    p.costs.bounds ≠ [] →
    (∀ th ∈ ths, th.costs.length = p.costs.bounds.length) →
    TablesOk p.costs p.dp ths (p.runItemsGo ths).2 (p.runItemsGo ths).1.dp
  | [], p, _, _ => rfl
  | th :: rest, p, hB, hmem => by
      simp only [Problem.runItemsGo]
      obtain ⟨hInv, hle, hcosts, hthings⟩ :=
        multi_pack_spec p th.costs th.value th.num hB (hmem th (by simp))
      refine ⟨(p.multi_pack th.costs th.value th.num).1.dp, hInv, hle, ?_⟩
      have ih := runItemsGo_tablesOk rest (p.multi_pack th.costs th.value th.num).1
        (by rw [hcosts]; exact hB)
        (fun t ht => by rw [hcosts]; exact hmem t (by simp [ht]))
      rwa [hcosts] at ih

theorem revOk_append (cs : Costs) :
    ∀ (l : List (Thing × (Nat → Nat))) (th : Thing) (tb : Nat → Nat)
      (dp0 dp1 dpF : Nat → ℚ),
      RevOk cs l dp1 dpF → Inv cs th.costs th.value dp0 (dp1, tb) →
      (∀ x, tb x ≤ th.num) → RevOk cs (l ++ [(th, tb)]) dp0 dpF
  | [], th, tb, dp0, dp1, dpF, hrev, hinv, hle => by
      have h1 : dpF = dp1 := hrev
      refine ⟨dp0, ?_, hle, rfl⟩
      rw [h1]
      exact hinv
  | (th', tb') :: rest, th, tb, dp0, dp1, dpF, hrev, hinv, hle => by
      obtain ⟨dpMid, hinv', hle', hrest⟩ := hrev
      exact ⟨dpMid, hinv', hle',
        revOk_append cs rest th tb dp0 dp1 dpMid hrest hinv hle⟩

theorem tablesOk_rev (cs : Costs) :
    ∀ (ths : List Thing) (tbs : List (Nat → Nat)) (dp0 dpF : Nat → ℚ),
      TablesOk cs dp0 ths tbs dpF → RevOk cs ((ths.zip tbs).reverse) dp0 dpF
  | [], [], dp0, dpF, h => h
  | th :: ths, tb :: tbs, dp0, dpF, h => by
      obtain ⟨dp1, hinv, hle, hrest⟩ := h
      have ih := tablesOk_rev cs ths tbs dp1 dpF hrest
      have hz : ((th :: ths).zip (tb :: tbs)).reverse =
          (ths.zip tbs).reverse ++ [(th, tb)] := by
        rw [List.zip_cons_cons, List.reverse_cons]
      rw [hz]
      exact revOk_append cs _ th tb dp0 dp1 dpF ih hinv hle
  | [], _ :: _, _, _, h => False.elim h
  | _ :: _, [], _, _, h => False.elim h

/-! ### Backtracking is coherent: the central induction -/

theorem backtrack_main (cs : Costs) (hB : cs.bounds ≠ []) :
    ∀ (l : List (Thing × (Nat → Nat))) (dp0 dpF : Nat → ℚ) (v : Nat),
      RevOk cs l dp0 dpF → v ≤ cs.end' →
      (Problem.backtrackGo cs l v).1.length = l.length ∧
      (Problem.backtrackGo cs l v).2 ≤ cs.end' ∧
      BacktrackOk cs l v ∧
      (∀ i < l.length, (Problem.backtrackGo cs l v).1.getD i 0 ≤
        (l.getD i (dummyThing, fun _ => 0)).1.num) ∧
      dpF v = dp0 (Problem.backtrackGo cs l v).2 +
        ∑ i ∈ Finset.range l.length,
          ((Problem.backtrackGo cs l v).1.getD i 0 : ℚ) *
            (l.getD i (dummyThing, fun _ => 0)).1.value ∧
      (∀ d < cs.bounds.length,
        (∑ i ∈ Finset.range l.length,
          (l.getD i (dummyThing, fun _ => 0)).1.costs.getD d 0 *
            (Problem.backtrackGo cs l v).1.getD i 0) +
          (cs.to_cost (Problem.backtrackGo cs l v).2).getD d 0 =
          (cs.to_cost v).getD d 0)
  | [], dp0, dpF, v, hrev, hv => by
      have h1 : dpF = dp0 := hrev
      simp only [Problem.backtrackGo]
      refine ⟨rfl, hv, trivial, by simp, by rw [h1]; simp, ?_⟩
      intro d hd
      simp
  | (th, tb) :: rest, dp0, dpF, v, hrev, hv => by
      obtain ⟨dpMid, hinv, hle, hrest⟩ := hrev
      obtain ⟨⟨hL, hP⟩, hV⟩ := hinv v hv
      dsimp only at hL hP hV
      have hn := cs.to_cost_length v
      have hLl : th.costs.length = cs.bounds.length := by
        simpa [hn] using hL
      have hscl : (th.costs.map fun c => c * tb v).length = cs.bounds.length := by
        simp [hLl]
      have hscP : ∀ i < cs.bounds.length,
          (th.costs.map fun c => c * tb v).getD i 0 ≤ (cs.to_cost v).getD i 0 :=
        fun i hi => hP i (by omega)
      have hadd := cs.to_idx_sub_add hB (th.costs.map fun c => c * tb v)
        (cs.to_cost v) hscl hn hscP
      rw [cs.to_idx_to_cost hB v hv] at hadd
      have hsub : cs.to_idx (th.costs.map fun c => c * tb v) ≤ v := by omega
      have hstate : v - cs.to_idx (th.costs.map fun c => c * tb v) =
          cs.to_idx (List.zipWith (· - ·) (cs.to_cost v)
            (th.costs.map fun c => c * tb v)) := by omega
      have hdl : (List.zipWith (· - ·) (cs.to_cost v)
          (th.costs.map fun c => c * tb v)).length = cs.bounds.length := by
        simp [hn, hLl]
      have hdle : ∀ i < cs.bounds.length,
          (List.zipWith (· - ·) (cs.to_cost v)
            (th.costs.map fun c => c * tb v)).getD i 0 ≤ cs.bounds.getD i 0 := by
        intro i hi
        rw [getD_zipWith_of_lt _ _ _ i (by omega) (by omega) 0 0 0]
        exact le_trans (Nat.sub_le _ _) ((cs.to_cost_le v).2 i (by omega))
      have hv' : v - cs.to_idx (th.costs.map fun c => c * tb v) ≤ cs.end' := by
        rw [hstate]
        exact cs.to_idx_le_end' hB _ hdl hdle
      have htcv' : cs.to_cost (v - cs.to_idx (th.costs.map fun c => c * tb v)) =
          List.zipWith (· - ·) (cs.to_cost v)
            (th.costs.map fun c => c * tb v) := by
        rw [hstate]
        exact cs.to_cost_to_idx hB _ hdl hdle
      obtain ⟨ih1, ih2, ih3, ih4, ih5, ih6⟩ := backtrack_main cs hB rest dp0 dpMid
        (v - cs.to_idx (th.costs.map fun c => c * tb v)) hrest hv'
      simp only [Problem.backtrackGo]
      refine ⟨by simp [ih1], ih2, ⟨⟨hL, hP⟩, hsub, hstate, ih3⟩, ?_, ?_, ?_⟩
      · -- quantity bounds
        intro i hi
        cases i with
        | zero => simpa using hle v
        | succ j =>
            simp only [List.getD_cons_succ]
            exact ih4 j (by simpa using hi)
      · -- value reconstruction
        rw [← hstate] at hV
        rw [hV, ih5, List.length_cons, Finset.sum_range_succ']
        have hcong : ∑ i ∈ Finset.range rest.length,
            (((tb v :: (Problem.backtrackGo cs rest
                (v - cs.to_idx (th.costs.map fun c => c * tb v))).1).getD (i + 1) 0 : ℚ) *
              ((((th, tb) :: rest).getD (i + 1) (dummyThing, fun _ => 0)).1.value)) =
            ∑ i ∈ Finset.range rest.length,
              (((Problem.backtrackGo cs rest
                (v - cs.to_idx (th.costs.map fun c => c * tb v))).1.getD i 0 : ℚ) *
                ((rest.getD i (dummyThing, fun _ => 0)).1.value)) :=
          Finset.sum_congr rfl fun i _ => by
            simp [List.getD_cons_succ]
        rw [hcong]
        simp only [List.getD_cons_zero]
        ring
      · -- per-dimension resource accounting
        intro d hd
        have hih := ih6 d hd
        rw [List.length_cons, Finset.sum_range_succ']
        have hcong : ∑ i ∈ Finset.range rest.length,
            ((((th, tb) :: rest).getD (i + 1) (dummyThing, fun _ => 0)).1.costs.getD d 0 *
              ((tb v :: (Problem.backtrackGo cs rest
                (v - cs.to_idx (th.costs.map fun c => c * tb v))).1).getD (i + 1) 0)) =
            ∑ i ∈ Finset.range rest.length,
              ((rest.getD i (dummyThing, fun _ => 0)).1.costs.getD d 0 *
                ((Problem.backtrackGo cs rest
                  (v - cs.to_idx (th.costs.map fun c => c * tb v))).1.getD i 0)) :=
          Finset.sum_congr rfl fun i _ => by
            simp [List.getD_cons_succ]
        rw [hcong]
        simp only [List.getD_cons_zero]
        rw [htcv'] at hih
        rw [getD_zipWith_of_lt _ _ _ d (by omega) (by omega) 0 0 0] at hih
        have hmapd : (th.costs.map fun c => c * tb v).getD d 0 =
            th.costs.getD d 0 * tb v := getD_map_of_lt _ th.costs d (by omega) 0 0
        rw [hmapd] at hih
        have hscd : th.costs.getD d 0 * tb v ≤ (cs.to_cost v).getD d 0 := by
          have := hscP d hd
          rwa [hmapd] at this
        omega

/-! ### Validation facts and the full solver bundle -/

theorem check_ok_inv (up : UncheckedProblem) (pr : Problem)
    (h : up.check = Except.ok pr) :
    pr = Problem.new up.things up.costs ∧ up.costs ≠ [] ∧
      ∀ th ∈ up.things, th.costs.length = up.costs.length := by
  unfold UncheckedProblem.check at h
  by_cases h0 : up.costs.length = 0
  · rw [if_pos h0] at h
    exact Except.noConfusion h
  · rw [if_neg h0] at h
    by_cases h1 : (up.things.all fun thing =>
        thing.costs.length == up.costs.length) = true
    · rw [if_pos h1] at h
      refine ⟨(Except.ok.inj h).symm, fun hc => h0 (by rw [hc]; rfl), ?_⟩
      intro th ht
      have := List.all_eq_true.mp h1 th ht
      simpa using this
    · rw [if_neg h1] at h
      exact Except.noConfusion h

theorem solve_bundle (things : List Thing) (bounds : List Nat)
    (hB : bounds ≠ []) (hlens : ∀ th ∈ things, th.costs.length = bounds.length) :
    (Problem.new things bounds).solve.chosen.length = things.length ∧
    (∀ i < things.length,
      ((Problem.new things bounds).solve.chosen.getD i ("", 0)).1 =
        (things.getD i dummyThing).name) ∧
    (∀ i < things.length,
      ((Problem.new things bounds).solve.chosen.getD i ("", 0)).2 ≤
        (things.getD i dummyThing).num) ∧
    ((Problem.new things bounds).solve.value =
      ∑ i ∈ Finset.range things.length,
        ((((Problem.new things bounds).solve.chosen.getD i ("", 0)).2 : ℚ)) *
          (things.getD i dummyThing).value) ∧
    (∀ d < bounds.length,
      (∑ i ∈ Finset.range things.length,
        (things.getD i dummyThing).costs.getD d 0 *
          ((Problem.new things bounds).solve.chosen.getD i ("", 0)).2) ≤
        bounds.getD d 0) := by
  have hB' : (Problem.new things bounds).costs.bounds ≠ [] := hB
  have hlens' : ∀ th ∈ things, th.costs.length =
      (Problem.new things bounds).costs.bounds.length := hlens
  have htab := runItemsGo_tablesOk things (Problem.new things bounds) hB' hlens'
  set tables := ((Problem.new things bounds).runItemsGo things).2 with htbl
  have hrev := tablesOk_rev (Problem.new things bounds).costs things tables
    (Problem.new things bounds).dp
    ((Problem.new things bounds).runItemsGo things).1.dp htab
  set rl := (things.zip tables).reverse with hrl
  obtain ⟨b1, b2, b3, b4, b5, b6⟩ := backtrack_main
    (Problem.new things bounds).costs hB' rl (Problem.new things bounds).dp
    ((Problem.new things bounds).runItemsGo things).1.dp
    (Problem.new things bounds).costs.end' hrev (le_refl _)
  set bt := Problem.backtrackGo (Problem.new things bounds).costs rl
    (Problem.new things bounds).costs.end' with hbt
  have hLt : tables.length = things.length := runItemsGo_length things _
  have hLz : (things.zip tables).length = things.length := by simp [hLt]
  have hLr : rl.length = things.length := by rw [hrl]; simp [hLz]
  rw [hLr] at b1 b4 b5 b6
  have hq : bt.1.length = things.length := b1
  have hch : (Problem.new things bounds).solve.chosen =
      (things.map Thing.name).zip bt.1.reverse := rfl
  have hval : (Problem.new things bounds).solve.value =
      ((Problem.new things bounds).runItemsGo things).1.dp
        (Problem.new things bounds).costs.end' := rfl
  have hzipget : ∀ j < things.length,
      (things.zip tables).getD j (dummyThing, fun _ => 0) =
        (things.getD j dummyThing, tables.getD j fun _ => 0) :=
    fun j hj => getD_zip_of_lt things tables j (by omega) (by omega) _ _ _
  have hrlget : ∀ i < things.length,
      rl.getD i (dummyThing, fun _ => 0) =
        (things.zip tables).getD (things.length - 1 - i) (dummyThing, fun _ => 0) := by
    intro i hi
    rw [hrl, getD_reverse _ i (by omega) _, hLz]
  have hchget : ∀ i < things.length,
      (Problem.new things bounds).solve.chosen.getD i ("", 0) =
        ((things.getD i dummyThing).name,
          bt.1.getD (things.length - 1 - i) 0) := by
    intro i hi
    rw [hch, getD_zip_of_lt (things.map Thing.name) bt.1.reverse i
      (by simp; omega) (by simp [hq]; omega) ("", 0) "" 0]
    rw [getD_map_of_lt Thing.name things i (by omega) "" dummyThing]
    rw [getD_reverse bt.1 i (by omega) 0, hq]
  have hdp0 : ∀ x, (Problem.new things bounds).dp x = 0 := fun _ => rfl
  refine ⟨?_, ?_, ?_, ?_, ?_⟩
  · rw [hch]
    simp [hq]
  · intro i hi
    rw [hchget i hi]
  · intro i hi
    rw [hchget i hi]
    have h4 := b4 (things.length - 1 - i) (by omega)
    rw [hrlget _ (by omega)] at h4
    have hidx : things.length - 1 - (things.length - 1 - i) = i := by omega
    rw [hidx, hzipget i hi] at h4
    exact h4
  · rw [hval, b5, hdp0, zero_add]
    rw [← Finset.sum_range_reflect]
    apply Finset.sum_congr rfl
    intro i hi
    have hiL : i < things.length := Finset.mem_range.mp hi
    have hidx : things.length - 1 - (things.length - 1 - i) = i := by omega
    rw [hchget i hiL, hrlget _ (by omega), hidx, hzipget i hiL]
  · intro d hd
    have h6 := b6 d hd
    have hce : (Problem.new things bounds).costs.to_cost
        ((Problem.new things bounds).costs.end') = bounds :=
      Costs.to_cost_to_idx _ hB' bounds rfl fun i hi => le_refl _
    rw [hce] at h6
    have husum : ∑ i ∈ Finset.range things.length,
        (things.getD i dummyThing).costs.getD d 0 *
          ((Problem.new things bounds).solve.chosen.getD i ("", 0)).2 =
        ∑ i ∈ Finset.range things.length,
          (rl.getD i (dummyThing, fun _ => 0)).1.costs.getD d 0 *
            bt.1.getD i 0 := by
      rw [← Finset.sum_range_reflect]
      apply Finset.sum_congr rfl
      intro i hi
      have hiL : i < things.length := Finset.mem_range.mp hi
      rw [hchget _ (by omega)]
      have hidx : things.length - 1 - (things.length - 1 - i) = i := by omega
      rw [hidx]
      rw [hrlget i hiL, hzipget _ (by omega)]
    rw [husum]
    omega

/-! ### Remaining helper lemmas -/

theorem validateSubGo_short : ∀ (bound cost rads : List Nat) (a : Nat),
    cost.length < bound.length → Costs.validateSubGo bound cost rads a = none
  | _ :: _, [], _, _, _ => rfl
  | b :: bs, c :: cost, rads, a, h => by
      unfold Costs.validateSubGo
      by_cases hbc : b < c
      · rw [if_pos hbc]
      · rw [if_neg hbc]
        exact validateSubGo_short bs cost rads.tail _ (by simpa using h)
  | [], _, _, _, h => absurd h (by simp)

theorem validateSubGo_take : ∀ (bound cost rads : List Nat) (a : Nat),
    Costs.validateSubGo bound cost rads a =
      Costs.validateSubGo bound (cost.take bound.length) rads a
  | [], _, _, _ => rfl
  | _ :: _, [], _, _ => rfl
  | b :: bs, c :: cost, rads, a => by
      have ht : (c :: cost).take (b :: bs).length = c :: cost.take bs.length := by
        rw [List.length_cons, List.take_succ_cons]
      rw [ht]
      unfold Costs.validateSubGo
      by_cases hbc : b < c
      · rw [if_pos hbc, if_pos hbc]
      · rw [if_neg hbc, if_neg hbc, validateSubGo_take bs cost rads.tail _]

theorem Costs.validate_sub_take (cs : Costs) (bound cost : List Nat) :
    cs.validate_sub bound cost = cs.validate_sub bound (cost.take bound.length) :=
  validateSubGo_take bound cost cs.bounds.tail 0

theorem multi_pack_zero (q : Problem) (cost : List Nat) (value : ℚ) :
    q.multi_pack cost value 0 = (q, fun _ => 0) := by
  unfold Problem.multi_pack
  rw [Problem.multiPackGo]
  norm_num

/-! ### The claims -/

/-- C1.  For every validated problem (`check` succeeded: non-empty bound
vector, matching cost-vector lengths), the total value returned by
`solve` equals `Σ chosenQuantity_i · value_i` recomputed independently
from the returned name-to-quantity mapping: the mapping has one entry
per input item, entry `i` carries item `i`'s name, and the value is the
sum of entry quantities times item values.  The `f64` values are
modelled exactly (as `ℚ`). -/
theorem claim_value_recompute (up : UncheckedProblem) (pr : Problem)
    (hchk : up.check = Except.ok pr) :
    pr.solve.value =
      (∑ i ∈ Finset.range pr.things.length,
        ((pr.solve.chosen.getD i ("", 0)).2 : ℚ) *
          (pr.things.getD i dummyThing).value) ∧
    pr.solve.chosen.length = pr.things.length ∧
    (∀ i < pr.things.length,
      (pr.solve.chosen.getD i ("", 0)).1 = (pr.things.getD i dummyThing).name) := by
  obtain ⟨hpr, hB, hlens⟩ := check_ok_inv up pr hchk
  subst hpr
  obtain ⟨s1, s2, s3, s4, s5⟩ := solve_bundle up.things up.costs hB hlens
  exact ⟨s4, s1, s2⟩

/-- C2.  For every validated problem and every dimension `d`, the
quantities chosen by `solve` satisfy
`Σ chosenQuantity_i · cost_i[d] ≤ bound[d]`. -/
theorem claim_resource_bound (up : UncheckedProblem) (pr : Problem)
    (hchk : up.check = Except.ok pr) :
    ∀ d < pr.costs.bounds.length,
      (∑ i ∈ Finset.range pr.things.length,
        (pr.things.getD i dummyThing).costs.getD d 0 *
          (pr.solve.chosen.getD i ("", 0)).2) ≤
        pr.costs.bounds.getD d 0 := by
  obtain ⟨hpr, hB, hlens⟩ := check_ok_inv up pr hchk
  subst hpr
  obtain ⟨s1, s2, s3, s4, s5⟩ := solve_bundle up.things up.costs hB hlens
  exact s5

/-- C3.  For every validated problem and every input item, the quantity
reported for that item by `solve` lies between `0` and the item's `num`
field, inclusive. -/
theorem claim_quantity_range (up : UncheckedProblem) (pr : Problem)
    (hchk : up.check = Except.ok pr) :
    ∀ i < pr.things.length,
      0 ≤ (pr.solve.chosen.getD i ("", 0)).2 ∧
        (pr.solve.chosen.getD i ("", 0)).2 ≤ (pr.things.getD i dummyThing).num := by
  obtain ⟨hpr, hB, hlens⟩ := check_ok_inv up pr hchk
  subst hpr
  obtain ⟨s1, s2, s3, s4, s5⟩ := solve_bundle up.things up.costs hB hlens
  exact fun i hi => ⟨Nat.zero_le _, s3 i hi⟩

/-- C4.  For every non-empty bound vector, `to_idx` and `to_cost` are
mutually inverse: `to_idx (to_cost i) = i` for every `i` below
`size = to_idx bound + 1`, and `to_cost (to_idx v) = v` for every vector
with one entry per dimension that is componentwise within the bounds. -/
theorem claim_idx_cost_inverse (bounds : List Nat) (hB : bounds ≠ []) :
    (∀ i < (Costs.mk bounds).end' + 1,
      (Costs.mk bounds).to_idx ((Costs.mk bounds).to_cost i) = i) ∧
    (∀ v : List Nat, v.length = bounds.length → vle v bounds →
      (Costs.mk bounds).to_cost ((Costs.mk bounds).to_idx v) = v) := by
  constructor
  · intro i hi
    exact Costs.to_idx_to_cost _ hB i (by omega)
  · intro v hlen hv
    exact Costs.to_cost_to_idx _ hB v hlen fun i hi => hv.2 i (by rw [hlen]; exact hi)

/-- C5.  For every non-empty bound vector, a budget componentwise within
the bounds and a cost vector of the same length: `validate_sub` returns
`none` exactly when some dimension's cost exceeds the budget, and
otherwise returns the encoded index of the componentwise difference. -/
theorem claim_validate_sub_spec (bounds : List Nat) (hB : bounds ≠ [])
    (budget cost : List Nat) (hbl : budget.length = bounds.length)
    (hbv : vle budget bounds) (hcl : cost.length = bounds.length) :
    ((Costs.mk bounds).validate_sub budget cost = none ↔
      ∃ d < bounds.length, budget.getD d 0 < cost.getD d 0) ∧
    ((∀ d < bounds.length, cost.getD d 0 ≤ budget.getD d 0) →
      (Costs.mk bounds).validate_sub budget cost =
        some ((Costs.mk bounds).to_idx (List.zipWith (· - ·) budget cost))) := by
  constructor
  · have h := (Costs.mk bounds).validate_sub_none_iff budget cost (by omega)
    rw [hbl] at h
    exact h
  · intro hp
    exact (Costs.mk bounds).validate_sub_some budget cost hbl hcl hB
      fun i hi => hp i (by omega)

/-- C6.  For every non-empty bound vector, every index `i` in
`[0, size)` and every cost vector: a successful
`validate_sub (to_cost i) cost = some p` satisfies `p ≤ i` — spending a
non-negative per-dimension cost never increases the encoded index. -/
theorem claim_spend_decreases (bounds : List Nat) (hB : bounds ≠ [])
    (i : Nat) (hi : i < (Costs.mk bounds).end' + 1) (cost : List Nat) (p : Nat)
    (h : (Costs.mk bounds).validate_sub ((Costs.mk bounds).to_cost i) cost =
      some p) : p ≤ i := by
  rcases Nat.lt_or_ge cost.length ((Costs.mk bounds).to_cost i).length with hlt | hge
  · rw [Costs.validate_sub] at h
    rw [validateSubGo_short _ _ _ _ hlt] at h
    exact Option.noConfusion h
  · rw [(Costs.mk bounds).validate_sub_take] at h
    refine (Costs.mk bounds).spend_le_self hB i (by omega)
      (cost.take ((Costs.mk bounds).to_cost i).length) ?_ p h
    rw [List.length_take, (Costs.mk bounds).to_cost_length]
    rw [(Costs.mk bounds).to_cost_length] at hge
    omega

/-- C7.  Over a single call to `zero_one_pack`, no entry of the value
table is ever decreased; and each individual update step either leaves
the state unchanged or, given a feasible predecessor `idx`, writes
`dp[idx] + value` into `dp[c]` and the matching quantity into
`taked[c]` exactly when that candidate strictly exceeds the current
`dp[c]`. -/
theorem claim_monotone_update (p : Problem) (cost : List Nat) (value : ℚ)
    (k : Nat) (taked : Nat → Nat) :
    (∀ x, p.dp x ≤ (p.zero_one_pack cost value k taked).1.dp x) ∧
    (∀ (st : DpState) (c : Nat),
      zopStep p.costs cost value k st c = st ∨
      ∃ idx, p.costs.validate_sub (p.costs.to_cost c) cost = some idx ∧
        st.1 c < st.1 idx + value ∧
        zopStep p.costs cost value k st c =
          (Function.update st.1 c (st.1 idx + value),
           Function.update st.2 c (st.2 idx + k))) :=
  ⟨fun x => zopPass_dp_mono p.costs cost value k (p.dp, taked) x,
   fun st c => zopStep_eq_or p.costs cost value k st c⟩

/-- C8.  For every validated problem, the solver's backtracking starts
at the maximal index and at each step (items in reverse input order)
reads the chosen quantity from the quantity table at the current state,
subtracts `cost × quantity` componentwise from the decoded state with
every component staying non-negative, and the next state — computed in
the code as plain index subtraction — equals the re-encoding of that
componentwise difference. -/
theorem claim_backtrack_reencode (up : UncheckedProblem) (pr : Problem)
    (hchk : up.check = Except.ok pr) :
    BacktrackOk pr.costs ((pr.things.zip pr.runItems.2).reverse)
      pr.costs.end' := by
  obtain ⟨hpr, hB, hlens⟩ := check_ok_inv up pr hchk
  subst hpr
  have hB' : (Problem.new up.things up.costs).costs.bounds ≠ [] := hB
  have htab := runItemsGo_tablesOk up.things (Problem.new up.things up.costs) hB'
    hlens
  have hrev := tablesOk_rev (Problem.new up.things up.costs).costs up.things
    ((Problem.new up.things up.costs).runItemsGo up.things).2
    (Problem.new up.things up.costs).dp
    ((Problem.new up.things up.costs).runItemsGo up.things).1.dp htab
  exact (backtrack_main (Problem.new up.things up.costs).costs hB' _
    (Problem.new up.things up.costs).dp
    ((Problem.new up.things up.costs).runItemsGo up.things).1.dp
    (Problem.new up.things up.costs).costs.end' hrev (le_refl _)).2.2.1

/-- C9.  With maximum count `0`, `multi_pack` runs no pass at all: the
problem (hence the value table) is returned unchanged and the quantity
table is identically zero; and for a validated problem, an item whose
`num` is `0` still appears in `solve`'s output mapping, with
quantity `0`. -/
theorem claim_zero_count (up : UncheckedProblem) (pr : Problem)
    (hchk : up.check = Except.ok pr) (i : Nat) (hi : i < pr.things.length)
    (hz : (pr.things.getD i dummyThing).num = 0) :
    (∀ (q : Problem) (cost : List Nat) (value : ℚ),
      q.multi_pack cost value 0 = (q, fun _ => 0)) ∧
    pr.solve.chosen.getD i ("", 0) = ((pr.things.getD i dummyThing).name, 0) := by
  refine ⟨fun q cost value => multi_pack_zero q cost value, ?_⟩
  obtain ⟨hpr, hB, hlens⟩ := check_ok_inv up pr hchk
  subst hpr
  obtain ⟨s1, s2, s3, s4, s5⟩ := solve_bundle up.things up.costs hB hlens
  have hi' : i < up.things.length := hi
  have hz' : (up.things.getD i dummyThing).num = 0 := hz
  have hq := s3 i hi'
  have hn := s2 i hi'
  exact Prod.ext_iff.mpr ⟨hn, by omega⟩

/-- C10.  `check` fails exactly when the bound vector is empty or some
item's cost-vector length differs from the bound vector's length; the
empty-bound case takes precedence (it is reported before anything else
is built), and on success the problem is passed through unchanged
(`Problem.new` of the same items and bounds). -/
theorem claim_check_spec (up : UncheckedProblem) :
    ((∃ e, up.check = Except.error e) ↔
      (up.costs.length = 0 ∨ ∃ th ∈ up.things,
        th.costs.length ≠ up.costs.length)) ∧
    (up.costs.length = 0 →
      up.check = Except.error "must contain at least one cost") ∧
    (∀ pr, up.check = Except.ok pr → pr = Problem.new up.things up.costs) := by
  refine ⟨⟨?_, ?_⟩, ?_, fun pr h => (check_ok_inv up pr h).1⟩
  · rintro ⟨e, he⟩
    by_contra hcon
    push_neg at hcon
    obtain ⟨h0, h1⟩ := hcon
    unfold UncheckedProblem.check at he
    rw [if_neg h0, if_pos (List.all_eq_true.mpr fun th ht => by
      simpa using h1 th ht)] at he
    exact Except.noConfusion he
  · intro h
    by_cases h0 : up.costs.length = 0
    · exact ⟨"must contain at least one cost", by
        unfold UncheckedProblem.check
        rw [if_pos h0]⟩
    · rcases h with h | ⟨th, ht, hne⟩
      · exact absurd h h0
      · refine ⟨"costs does not match", ?_⟩
        unfold UncheckedProblem.check
        rw [if_neg h0, if_neg fun hal => hne (by
          simpa using List.all_eq_true.mp hal th ht)]
  · intro h0
    unfold UncheckedProblem.check
    rw [if_pos h0]

/-! ### Witnesses: the claims applied at concrete inputs -/

theorem claim_value_recompute_witness :
    (UncheckedProblem.mk [Thing.mk "a" 6 5 [2]] [10]).check =
      Except.ok (Problem.new [Thing.mk "a" 6 5 [2]] [10]) ∧
    (Problem.new [Thing.mk "a" 6 5 [2]] [10]).solve.value =
      (∑ i ∈ Finset.range (Problem.new [Thing.mk "a" 6 5 [2]] [10]).things.length,
        (((Problem.new [Thing.mk "a" 6 5 [2]] [10]).solve.chosen.getD i ("", 0)).2 : ℚ) *
          ((Problem.new [Thing.mk "a" 6 5 [2]] [10]).things.getD i dummyThing).value) ∧
    (Problem.new [Thing.mk "a" 6 5 [2]] [10]).solve.chosen.length =
      (Problem.new [Thing.mk "a" 6 5 [2]] [10]).things.length ∧
    ((Problem.new [Thing.mk "a" 6 5 [2]] [10]).solve.chosen.getD 0 ("", 0)).1 =
      ((Problem.new [Thing.mk "a" 6 5 [2]] [10]).things.getD 0 dummyThing).name :=
  ⟨rfl,
    (claim_value_recompute (UncheckedProblem.mk [Thing.mk "a" 6 5 [2]] [10]) _ rfl).1,
    (claim_value_recompute (UncheckedProblem.mk [Thing.mk "a" 6 5 [2]] [10]) _ rfl).2.1,
    (claim_value_recompute (UncheckedProblem.mk [Thing.mk "a" 6 5 [2]] [10]) _ rfl).2.2
      0 (by decide)⟩

theorem claim_resource_bound_witness :
    (UncheckedProblem.mk [Thing.mk "a" 6 5 [2]] [10]).check =
      Except.ok (Problem.new [Thing.mk "a" 6 5 [2]] [10]) ∧
    0 < (Problem.new [Thing.mk "a" 6 5 [2]] [10]).costs.bounds.length ∧
    (∑ i ∈ Finset.range (Problem.new [Thing.mk "a" 6 5 [2]] [10]).things.length,
      ((Problem.new [Thing.mk "a" 6 5 [2]] [10]).things.getD i dummyThing).costs.getD 0 0 *
        ((Problem.new [Thing.mk "a" 6 5 [2]] [10]).solve.chosen.getD i ("", 0)).2) ≤
      (Problem.new [Thing.mk "a" 6 5 [2]] [10]).costs.bounds.getD 0 0 :=
  ⟨rfl, by decide,
    claim_resource_bound (UncheckedProblem.mk [Thing.mk "a" 6 5 [2]] [10]) _ rfl
      0 (by decide)⟩

theorem claim_quantity_range_witness :
    (UncheckedProblem.mk [Thing.mk "a" 6 5 [2]] [10]).check =
      Except.ok (Problem.new [Thing.mk "a" 6 5 [2]] [10]) ∧
    0 < (Problem.new [Thing.mk "a" 6 5 [2]] [10]).things.length ∧
    0 ≤ ((Problem.new [Thing.mk "a" 6 5 [2]] [10]).solve.chosen.getD 0 ("", 0)).2 ∧
    ((Problem.new [Thing.mk "a" 6 5 [2]] [10]).solve.chosen.getD 0 ("", 0)).2 ≤
      ((Problem.new [Thing.mk "a" 6 5 [2]] [10]).things.getD 0 dummyThing).num :=
  ⟨rfl, by decide,
    (claim_quantity_range (UncheckedProblem.mk [Thing.mk "a" 6 5 [2]] [10]) _ rfl
      0 (by decide)).1,
    (claim_quantity_range (UncheckedProblem.mk [Thing.mk "a" 6 5 [2]] [10]) _ rfl
      0 (by decide)).2⟩

theorem claim_idx_cost_inverse_witness :
    ([2, 3] : List Nat) ≠ [] ∧ 5 < (Costs.mk [2, 3]).end' + 1 ∧
    (Costs.mk [2, 3]).to_idx ((Costs.mk [2, 3]).to_cost 5) = 5 ∧
    ([1, 2] : List Nat).length = ([2, 3] : List Nat).length ∧
    vle [1, 2] [2, 3] ∧
    (Costs.mk [2, 3]).to_cost ((Costs.mk [2, 3]).to_idx [1, 2]) = [1, 2] :=
  ⟨by decide, by decide,
    (claim_idx_cost_inverse [2, 3] (by decide)).1 5 (by decide),
    rfl, by decide,
    (claim_idx_cost_inverse [2, 3] (by decide)).2 [1, 2] rfl (by decide)⟩

theorem claim_validate_sub_spec_witness :
    ([2, 3] : List Nat) ≠ [] ∧
    ([2, 3] : List Nat).length = ([2, 3] : List Nat).length ∧
    vle [2, 3] [2, 3] ∧
    ([1, 1] : List Nat).length = ([2, 3] : List Nat).length ∧
    (Costs.mk [2, 3]).validate_sub [2, 3] [1, 1] =
      some ((Costs.mk [2, 3]).to_idx (List.zipWith (· - ·) [2, 3] [1, 1])) :=
  ⟨by decide, rfl, by decide, rfl,
    (claim_validate_sub_spec [2, 3] (by decide) [2, 3] [1, 1] rfl (by decide) rfl).2
      (by decide)⟩

theorem claim_spend_decreases_witness :
    ([2, 3] : List Nat) ≠ [] ∧ 6 < (Costs.mk [2, 3]).end' + 1 ∧
    (Costs.mk [2, 3]).validate_sub ((Costs.mk [2, 3]).to_cost 6) [1, 1] = some 1 ∧
    (1 : Nat) ≤ 6 :=
  ⟨by decide, by decide, by decide,
    claim_spend_decreases [2, 3] (by decide) 6 (by decide) [1, 1] 1 (by decide)⟩

theorem claim_backtrack_reencode_witness :
    (UncheckedProblem.mk [Thing.mk "a" 6 5 [2]] [10]).check =
      Except.ok (Problem.new [Thing.mk "a" 6 5 [2]] [10]) ∧
    BacktrackOk (Problem.new [Thing.mk "a" 6 5 [2]] [10]).costs
      ((Problem.new [Thing.mk "a" 6 5 [2]] [10]).things.zip
        (Problem.new [Thing.mk "a" 6 5 [2]] [10]).runItems.2).reverse
      (Problem.new [Thing.mk "a" 6 5 [2]] [10]).costs.end' :=
  ⟨rfl,
    claim_backtrack_reencode (UncheckedProblem.mk [Thing.mk "a" 6 5 [2]] [10]) _ rfl⟩

theorem claim_zero_count_witness :
    (UncheckedProblem.mk [Thing.mk "z" 9 0 [1]] [3]).check =
      Except.ok (Problem.new [Thing.mk "z" 9 0 [1]] [3]) ∧
    0 < (Problem.new [Thing.mk "z" 9 0 [1]] [3]).things.length ∧
    ((Problem.new [Thing.mk "z" 9 0 [1]] [3]).things.getD 0 dummyThing).num = 0 ∧
    (Problem.new [Thing.mk "z" 9 0 [1]] [3]).solve.chosen.getD 0 ("", 0) =
      (((Problem.new [Thing.mk "z" 9 0 [1]] [3]).things.getD 0 dummyThing).name, 0) :=
  ⟨rfl, by decide, rfl,
    (claim_zero_count (UncheckedProblem.mk [Thing.mk "z" 9 0 [1]] [3]) _ rfl
      0 (by decide) rfl).2⟩

theorem claim_check_spec_witness :
    (UncheckedProblem.mk [] []).costs.length = 0 ∧
    (UncheckedProblem.mk [] []).check =
      Except.error "must contain at least one cost" :=
  ⟨rfl, (claim_check_spec (UncheckedProblem.mk [] [])).2.1 rfl⟩

end Mkp
